import Mathlib

/-!
Verification of the toru task/note manager against its specification.

The Rust sources are shallowly embedded:
* `Graph` (src/graph.rs): a BTreeMap from ids to BTreeSets of ids, embedded as
  an association list with sorted-ascending neighbour lists; the cycle search
  is embedded with an explicit fuel argument (the Rust recursion has no fuel;
  a fuel of one more than the number of nodes is proved sufficient below).
* `Index` (src/index.rs): a HashMap from names to vectors of ids, embedded as
  an association list (HashMap iteration order is never observed by the
  functions modelled here).
* Errors (src/error.rs): the `Generic`/`Internal` variants carry formatted,
  colourised strings in the source; the embedding keeps the data each
  formatting site interpolates, one constructor per `format!` site, so that
  statements are independent of terminal-colour state.

Machine integers: ids are u64 and `Duration` fields are u16 in the source;
they are embedded as `Nat`, with reduction modulo 2 ^ 16 made explicit in the
`Duration` arithmetic where u16 overflow is reachable.
-/

namespace Toru

/-- Task identifier, `pub type Id = u64` in src/tasks.rs. Arithmetic on ids in
the modelled code never exceeds u64 bounds on reachable states (ids count
created tasks), so ids are embedded as `Nat`. -/
abbrev TaskId := Nat

/-- The data interpolated into each `format!` call that builds a
`Error::Generic` or `Error::Internal` message in the source, one constructor
per call site. The source renders these to colourised strings; the embedding
keeps them structurally. -/
inductive ErrMsg where
  /-- "Attempt to insert an edge in the dependency graph with a node which
  wasnt present" (src/graph.rs, insert_edge). -/
  | edgeMissingNode : ErrMsg
  /-- "Note with ID .. cannot depend on itself" (src/graph.rs, insert_edge). -/
  | selfDependency (id : TaskId) : ErrMsg
  /-- "Multiple notes (Ids: [..]) by that name exist" (src/index.rs, lookup). -/
  | multipleNotes (ids : List TaskId) : ErrMsg
  /-- "A note by the name .. does not exist" (src/index.rs, lookup). -/
  | noteNotFound (name : String) : ErrMsg
  /-- "No task with the ID .. exists" (src/tasks.rs, check_exists). -/
  | noTaskWithId (id : TaskId) : ErrMsg
  /-- "No task with an ID of .. exists" (src/tasks.rs, Task::new dependency
  check; src/edit.rs, edit_raw dependency check). -/
  | noTaskWithDependencyId (id : TaskId) : ErrMsg
  /-- "Name must not be purely numeric" (src/tasks.rs, Task::new;
  src/edit.rs, edit_raw). -/
  | numericName : ErrMsg
  /-- "You cannot change the ID of a task in a direct edit" (src/edit.rs). -/
  | idChanged : ErrMsg
  /-- "Task duration must not have a number of minutes greater than 60"
  (src/edit.rs). -/
  | durationInvariant : ErrMsg
  /-- "Note edit aborted due to circular dependency: .." (src/edit.rs). -/
  | circularDependency (cycle : List TaskId) : ErrMsg
  deriving DecidableEq, Repr

/-- src/error.rs `Error`: only the `Generic` (user-facing) and `Internal`
variants are constructed by the code modelled here; the remaining variants
wrap io/serde errors of the runtime environment. -/
inductive Error where
  | generic (msg : ErrMsg) : Error
  | internal (msg : ErrMsg) : Error
  deriving DecidableEq, Repr

/-- src/graph.rs `Graph`: `edges : BTreeMap<Id, BTreeSet<Id>>`. The map is
embedded as an association list sorted ascending by key and each neighbour
set as a list sorted ascending, matching BTreeMap/BTreeSet iteration order;
the insertion helpers below keep this shape. -/
structure Graph where
  edges : List (TaskId × List TaskId)
  deriving DecidableEq, Repr

/-- Insertion into a BTreeSet of ids: keeps the list sorted ascending and
returns whether the element was newly added (Rust `BTreeSet::insert`). -/
def setInsert (a : TaskId) : List TaskId → Bool × List TaskId
  | [] => (true, [a])
  | b :: t =>
    if a < b then (true, a :: b :: t)
    else if a = b then (false, b :: t)
    else
      let r := setInsert a t
      (r.1, b :: r.2)

/-- Insertion into a BTreeMap keyed by id: replaces the value if the key is
present (Rust `BTreeMap::insert` semantics), else places the new key in
ascending position. -/
def mapInsert (k : TaskId) (v : List TaskId) : List (TaskId × List TaskId) → List (TaskId × List TaskId)
  | [] => [(k, v)]
  | p :: t =>
    if k < p.1 then (k, v) :: p :: t
    else if k = p.1 then (k, v) :: t
    else p :: mapInsert k v t

namespace Graph

/-- The empty graph (`Graph::create` on no tasks). -/
def empty : Graph := ⟨[]⟩

/-- src/graph.rs `Graph::create`: inserts each task id with its stored
dependency set. -/
def create (tasks : List (TaskId × List TaskId)) : Graph :=
  ⟨tasks.foldl (fun m p => mapInsert p.1 p.2 m) []⟩

/-- src/graph.rs `Graph::contains_node`: `self.edges.contains_key(&node)`. -/
def contains_node (g : Graph) (node : TaskId) : Bool :=
  (g.edges.lookup node).isSome

/-- src/graph.rs `Graph::insert_node`:
`self.edges.insert(node, BTreeSet::new()).is_none()`. Note that a repeated
insert overwrites the existing neighbour set with the empty set, as
`BTreeMap::insert` replaces the value. -/
def insert_node (g : Graph) (node : TaskId) : Bool × Graph :=
  (!g.contains_node node, ⟨mapInsert node [] g.edges⟩)

/-- src/graph.rs `Graph::insert_edge`. The missing-node check precedes the
self-dependency check; on success the returned boolean reports whether the
edge was newly added. -/
def insert_edge (g : Graph) (first second : TaskId) : Except Error (Bool × Graph) :=
  if !g.contains_node first || !g.contains_node second then
    .error (.internal .edgeMissingNode)
  else if first = second then
    .error (.generic (.selfDependency first))
  else
    let outgoing := (g.edges.lookup first).getD []
    let r := setInsert second outgoing
    .ok (r.1, ⟨mapInsert first r.2 g.edges⟩)

/-- src/graph.rs `Graph::remove_node`: removes the node entry and strips the
node from every remaining neighbour set, returning whether the graph changed
together with the ids of all dependents of the removed node (the source
collects them in a HashSet; the embedding lists them in map order). -/
def remove_node (g : Graph) (node : TaskId) : (Bool × List TaskId) × Graph :=
  if g.contains_node node then
    let rest := g.edges.filter (fun p => p.1 ≠ node)
    let dependents := (rest.filter (fun p => node ∈ p.2)).map (fun p => p.1)
    ((true, dependents), ⟨rest.map (fun p => (p.1, p.2.erase node))⟩)
  else
    ((false, []), g)

/-- src/graph.rs `Graph::remove_edge`. -/
def remove_edge (g : Graph) (first second : TaskId) : Bool × Graph :=
  match g.edges.lookup first with
  | some outgoing =>
    (second ∈ outgoing, ⟨mapInsert first (outgoing.erase second) g.edges⟩)
  | none => (false, g)

/-- The outgoing neighbour list of a node. The source reads it with
`self.edges.get(&start).unwrap()`: on a node with no entry the Rust program
panics; all statements below are made under the closure hypothesis (every
edge endpoint has a node entry) under which the default is never taken. -/
def neighbors (g : Graph) (n : TaskId) : List TaskId :=
  (g.edges.lookup n).getD []

/-- The edge relation of the graph: `Edge g a b` holds when `b` is stored in
the dependency set of `a`. -/
def Edge (g : Graph) (a b : TaskId) : Prop :=
  b ∈ g.neighbors a

instance (g : Graph) (a b : TaskId) : Decidable (Edge g a b) := by
  unfold Edge; infer_instance

/-- The node keys of the graph, in map order. -/
def nodeKeys (g : Graph) : List TaskId := g.edges.map (fun p => p.1)

/-- The nodes of the graph as a finite set. -/
def nodesF (g : Graph) : Finset TaskId := (g.nodeKeys).toFinset

/-- Every edge endpoint has a node entry (the graphs the program builds have
this shape; `find_cycle` unwraps neighbour lookups assuming it). -/
def Closed (g : Graph) : Prop :=
  ∀ a b, g.Edge a b → g.contains_node b = true

/-- Result of one `find_cycle_local` call: the optional cycle path together
with the threaded `unvisited` and `current_path_visited` sets. -/
abbrev LocalRes := Option (List TaskId) × List TaskId × Finset TaskId

/-- The `for node in self.edges.get(&start).unwrap()` loop body of
src/graph.rs `find_cycle_local`, abstracted over the recursive call `rec`
(which the caller instantiates with `fcl` at one fuel less): a found path is
extended with `path.push(start)` and returned; after a child search that
found nothing, the child is removed from `current_path_visited` again. -/
def fclLoop (rec : TaskId → List TaskId → Finset TaskId → Option LocalRes) (start : TaskId) :
    List TaskId → List TaskId → Finset TaskId → Option LocalRes
  | [], unv, cpv => some (none, unv, cpv)
  | c :: cs, unv, cpv =>
    match rec c unv cpv with
    | none => none
    | some (some path, unv2, cpv2) => some (some (path ++ [start]), unv2, cpv2)
    | some (none, unv2, cpv2) => fclLoop rec start cs unv2 (cpv2.erase c)

/-- src/graph.rs `Graph::find_cycle_local`. The Rust recursion carries no
fuel; the embedding adds one (`none` = fuel exhausted), and
`fcl_ne_none_of_fuel` below shows that one more unit than the number of nodes
outside `current_path_visited` is always sufficient, so the fuel used by
`find_cycle` is never exhausted. `unvisited` is a BTreeSet embedded as a
sorted list, `current_path_visited` a HashSet embedded as a `Finset`. -/
def fcl (g : Graph) : Nat → TaskId → List TaskId → Finset TaskId → Option LocalRes
  | 0, _, _, _ => none
  | fuel + 1, start, unv, cpv =>
    if start ∈ cpv then some (some [start], unv, cpv)
    else fclLoop (fcl g fuel) start (g.neighbors start) (unv.erase start) (insert start cpv)

/-- The `unvisited` BTreeSet populated from all node keys at the start of
src/graph.rs `find_cycle`, embedded as the sorted deduplicated key list. -/
def unvisitedInit (g : Graph) : List TaskId :=
  g.nodeKeys.foldl (fun s n => (setInsert n s).2) []

/-- The `while !unvisited.is_empty()` loop of src/graph.rs `find_cycle`:
starts a local search from the first (least) unvisited node with a fresh
`current_path_visited` set. Fuelled like `fcl`; each iteration removes the
start node from `unvisited`, so one more unit than the length of `unvisited`
suffices (`findCycleLoop_ne_none_of_fuel` below). -/
def findCycleLoop (g : Graph) : Nat → List TaskId → Option (Option (List TaskId))
  | 0, _ => none
  | fuel + 1, unv =>
    match unv with
    | [] => some none
    | start :: _ =>
      match fcl g (g.edges.length + 1) start unv ∅ with
      | none => none
      | some (some path, _, _) => some (some path)
      | some (none, unv2, _) => findCycleLoop g fuel unv2

/-- src/graph.rs `Graph::find_cycle`, with the sufficient fuel amounts
supplied (the adequacy lemmas below show the `none` fallback, which stands
for fuel exhaustion and has no Rust counterpart, is never taken on graphs
satisfying `Closed`). -/
def find_cycle (g : Graph) : Option (List TaskId) :=
  match findCycleLoop g (g.unvisitedInit.length + 1) g.unvisitedInit with
  | some r => r
  | none => none

/-- There is a walk from `v` that reaches the set `S` or revisits one of its
own earlier nodes: exactly the situation in which the path-marking search
starting at `v` with `current_path_visited = S` reports a cycle. -/
inductive Hits (g : Graph) : Finset TaskId → TaskId → Prop where
  | base {S : Finset TaskId} {v : TaskId} : v ∈ S → Hits g S v
  | step {S : Finset TaskId} {v c : TaskId} :
      g.Edge v c → Hits g (insert v S) c → Hits g S v

/-- Executable sufficient check for `Closed`, for concrete graphs. -/
def closedB (g : Graph) : Bool :=
  g.edges.all (fun p => p.2.all (fun b => g.contains_node b))

/-- Well-formed graph: the shape every value of the Rust type
`BTreeMap<Id, BTreeSet<Id>>` has, namely strictly ascending keys and strictly
ascending neighbour lists. -/
def WF (g : Graph) : Prop :=
  (g.edges.map (fun p => p.1)).Pairwise (· < ·) ∧
    ∀ p ∈ g.edges, p.2.Pairwise (· < ·)

/-- One call against the public mutating API of the dependency graph. -/
inductive GraphOp where
  | node (n : TaskId)
  | edge (a b : TaskId)
  deriving DecidableEq, Repr

/-- Runs a sequence of `insert_node`/`insert_edge` calls from a starting
graph, stopping at the first `insert_edge` error (so a final `.ok` means
every `insert_edge` call succeeded). -/
def applyOps : Graph → List GraphOp → Except Error Graph
  | g, [] => .ok g
  | g, .node n :: ops => applyOps (g.insert_node n).2 ops
  | g, .edge a b :: ops =>
    match g.insert_edge a b with
    | .error e => .error e
    | .ok r => applyOps r.2 ops

end Graph

/-- src/index.rs `Index`: `map : HashMap<String, Vec<Id>>`, embedded as an
association list. HashMap iteration order is never observed by the
functions modelled here (`lookup` and `remove` access single keys), so the
list order only fixes a deterministic representation. -/
structure Index where
  map : List (String × List TaskId)
  deriving DecidableEq, Repr

/-- Rust `str::parse::<u64>` (`from_str_radix`, radix 10): an optional
leading plus sign (a minus sign is not a sign for unsigned types and is
rejected as an invalid digit), then at least one ASCII digit, with the value
required to fit in 64 bits; on overflow the parse errors, so such a token
falls through to name lookup. -/
def parseU64 (s : String) : Option Nat :=
  let ds := match s.data with
    | '+' :: rest => rest
    | l => l
  if ds = [] then none
  else if ds.all (fun c => c.isDigit) then
    let v := ds.foldl (fun a c => a * 10 + (c.toNat - '0'.toNat)) 0
    if v < 2 ^ 64 then some v else none
  else none

/-- The shared push-or-start-a-vector insertion used by `Index::create`,
`Index::insert` (src/index.rs) and the index rebuild in `State::load`
(src/state.rs): appends the id to the vector under the name, creating the
entry when absent (placed at the end of the association list; HashMap
placement is unobservable). -/
def indexInsertPair (m : List (String × List TaskId)) (name : String) (id : TaskId) :
    List (String × List TaskId) :=
  match m.lookup name with
  | some ids => m.map (fun p => if p.1 = name then (p.1, ids ++ [id]) else p)
  | none => m ++ [(name, [id])]

/-- Rust `Vec::swap_remove(i)`: removes index `i`, moving the last element
into its place. -/
def swapRemove (l : List TaskId) (i : Nat) : List TaskId :=
  if i + 1 = l.length then l.dropLast
  else (l.set i (l.getLast?.getD 0)).dropLast

namespace Index

/-- src/index.rs `Index::create`, over the (name, id) pairs of the loaded
tasks. -/
def create (tasks : List (String × TaskId)) : Index :=
  ⟨tasks.foldl (fun m p => indexInsertPair m p.1 p.2) []⟩

/-- src/index.rs `Index::insert`. -/
def insert (idx : Index) (name : String) (id : TaskId) : Index :=
  ⟨indexInsertPair idx.map name id⟩

/-- src/index.rs `Index::remove`: removes the whole entry, swap-removes the
id from the vector if present, and reinserts the remainder when nonempty.
(When the id is not in the vector, the source drops the entire entry.) -/
def remove (idx : Index) (name : String) (id : TaskId) : Index :=
  match idx.map.lookup name with
  | none => idx
  | some ids =>
    let m2 := idx.map.filter (fun p => p.1 ≠ name)
    match ids.findIdx? (fun i => i == id) with
    | none => ⟨m2⟩
    | some i =>
      let ids2 := swapRemove ids i
      if ids2 = [] then ⟨m2⟩ else ⟨m2 ++ [(name, ids2)]⟩

/-- src/index.rs `Index::lookup`: a token parsing as u64 is returned
directly; otherwise the name map decides between the unique id, the
not-found error and the ambiguous error listing every stored id. -/
def lookup (idx : Index) (nameOrId : String) : Except Error TaskId :=
  match parseU64 nameOrId with
  | some id => .ok id
  | none =>
    match idx.map.lookup nameOrId with
    | some ids =>
      if ids.length = 1 then .ok (ids.getD 0 0)
      else .error (.generic (.multipleNotes ids))
    | none => .error (.generic (.noteNotFound nameOrId))

end Index

/-- src/tasks.rs `Duration`: both fields are u16 in the source; embedded as
`Nat`, with reduction modulo 2 ^ 16 made explicit in the arithmetic where
u16 overflow is reachable. -/
structure Duration where
  hours : Nat
  minutes : Nat
  deriving DecidableEq, Repr

namespace Duration

/-- src/tasks.rs `Duration::zero`. -/
def zero : Duration := ⟨0, 0⟩

/-- src/tasks.rs `Duration::satisfies_invariant`. -/
def satisfies_invariant (d : Duration) : Bool := d.minutes < 60

/-- `impl ops::Add for Duration` (src/tasks.rs):
hours = `self.hours + other.hours + (self.minutes + other.minutes) / 60`,
minutes = `(self.minutes + other.minutes) % 60`, in u16 arithmetic
(each sum reduced modulo 2 ^ 16, the release-build wrapping semantics). -/
def add (d1 d2 : Duration) : Duration :=
  ⟨((d1.hours + d2.hours) % 2 ^ 16 + ((d1.minutes + d2.minutes) % 2 ^ 16) / 60) % 2 ^ 16,
    ((d1.minutes + d2.minutes) % 2 ^ 16) % 60⟩

/-- `impl ops::Div<usize> for Duration` (src/tasks.rs). The source computes
`self.hours * 60 + self.minutes` in u16 (wrapping), converts to f64
(exact, every u16 is representable), divides, calls `.round()` (half away
from zero) and casts back with `as u16` (saturating). The embedding computes
the rounded nonnegative quotient on exact naturals as
`(2 * total + n) / (2 * n)`; the f64 quotient can differ from the exact one
by one unit in the last place, shifting the rounded value only at half-way
boundaries, and no property stated in this file depends on that choice.
A zero divisor yields f64 infinity, which the cast saturates to 65535. -/
def divByCount (d : Duration) (n : Nat) : Duration :=
  let total := ((d.hours * 60) % 2 ^ 16 + d.minutes) % 2 ^ 16
  let divided := if n = 0 then 2 ^ 16 - 1 else (2 * total + n) / (2 * n)
  ⟨divided / 60, divided % 60⟩

end Duration

/-- src/tasks.rs `TimeEntry`; the `chrono::NaiveDate` is embedded as an
abstract day number. -/
structure TimeEntry where
  logged_date : Nat
  message : Option String
  duration : Duration
  deriving DecidableEq, Repr

/-- src/tasks.rs `Priority` (default `Low`). -/
inductive Priority where
  | backlog
  | low
  | medium
  | high
  deriving DecidableEq, Repr

/-- src/tasks.rs `InternalTask`; `chrono` date-times are embedded as
abstract `Nat` timestamps, the tag HashSet as a list. The dependency
`HashSet<Id>` is represented canonically as an ascending duplicate-free
list, so HashSet equality (used by `edit_raw` to detect a dependency
change) coincides with equality of representations and membership is list
membership. -/
structure InternalTask where
  id : TaskId
  name : String
  tags : List String
  dependencies : List TaskId
  priority : Priority
  due : Option Nat
  created : Nat
  completed : Option Nat
  info : Option String
  time_entries : List TimeEntry
  deriving DecidableEq, Repr

deriving instance DecidableEq for Except

/-- The numeric-name check `name.chars().all(|c| c.is_numeric())` of
src/tasks.rs `Task::new` and src/edit.rs `edit_raw`. Rust
`char::is_numeric` accepts the Unicode numeric categories; on the ASCII
names occurring in the claims it coincides with the ASCII digit test used
here, and on the empty string both are vacuously true. -/
def nameIsPurelyNumeric (name : String) : Bool :=
  name.data.all (fun c => c.isDigit)

/-- The task directory of the vault: the per-task record files
`<id>.toml`, with TOML serialisation abstracted away (each file stores the
parsed record). src/tasks.rs spells the directory `tasks` and the id scan in
src/state.rs spells it `notes`; both reach the same collection of records
here. -/
abbrev VaultFiles := List (TaskId × InternalTask)

/-- Overwrite-or-create a record file (the effect of writing the serialised
task at its path). -/
def writeRecord : VaultFiles → TaskId → InternalTask → VaultFiles
  | [], id, t => [(id, t)]
  | (k, r) :: rest, id, t =>
    if k = id then (id, t) :: rest else (k, r) :: writeRecord rest id t

/-- src/tasks.rs `Task::delete`: moves the task file to trash. -/
def deleteRecord (v : VaultFiles) (id : TaskId) : VaultFiles :=
  v.filter (fun p => p.1 ≠ id)

/-- The in-memory vault state as used by src/main.rs, src/tasks.rs and
src/edit.rs: `next_id`, an `Index` (accessed through the `Index` methods)
and the dependency graph `state.data.deps`. The `InternalState` actually
declared in src/state.rs (embedded separately below) has no `deps` field
and a plain map in place of the `Index`; the source snapshot is internally
inconsistent here, which claims C1 and C2 settle. -/
structure ProgState where
  next_id : TaskId
  index : Index
  deps : Graph
  deriving DecidableEq, Repr

/-- The stored dependency set of a record as an iteration sequence. Rust
iterates the `HashSet` in unspecified order; the embedding iterates the
canonical ascending representation, and every statement below is
insensitive to this choice. -/
def recordDeps (t : InternalTask) : List TaskId :=
  t.dependencies

/-- The dependency-edge insertion loop shared by src/tasks.rs `Task::new`
and src/edit.rs `edit_raw`: for each dependency, require it to be a node of
the graph (else the user-facing no-such-task error) and insert the edge,
propagating `insert_edge` errors. -/
def insertDepEdges : Graph → TaskId → List TaskId → Except Error Graph
  | g, _, [] => .ok g
  | g, id, d :: rest =>
    if g.contains_node d then
      match g.insert_edge id d with
      | .error e => .error e
      | .ok r => insertDepEdges r.2 id rest
    else .error (.generic (.noTaskWithDependencyId d))

namespace Task

/-- src/tasks.rs `Task::load` via `Task::check_exists`: the record must
exist in the task directory. -/
def load (v : VaultFiles) (id : TaskId) : Except Error InternalTask :=
  match v.lookup id with
  | some t => .ok t
  | none => .error (.generic (.noTaskWithId id))

/-- src/tasks.rs `Task::save`: re-serialises the in-memory record and
overwrites its file in place; the body performs no validation of any kind
(destructure, serialise, truncate, write). -/
def save (v : VaultFiles) (t : InternalTask) : Except Error VaultFiles :=
  .ok (writeRecord v t.id t)

/-- src/tasks.rs `Task::new`: rejects a purely numeric name, allocates
`id = state.next_id` and increments `next_id`, creates the record file,
inserts the node and one edge per dependency (failing with the user-facing
error when a dependency is not a node), and registers the name in the
index. On an error return the Rust caller (`program`, src/main.rs) aborts
before `state.save()`, so partially mutated in-memory state is never
observed and is not modelled; the empty file a failed creation leaves on
disk is likewise outside the model. `created` stands for the
`chrono::Local::now()` timestamp. -/
def new (name : String) (info : Option String) (tags : List String)
    (dependencies : List TaskId) (priority : Option Priority)
    (due : Option Nat) (created : Nat) (v : VaultFiles) (st : ProgState) :
    Except Error (InternalTask × VaultFiles × ProgState) :=
  if nameIsPurelyNumeric name then .error (.generic .numericName)
  else
    let id := st.next_id
    let deps2 := (st.deps.insert_node id).2
    match insertDepEdges deps2 id dependencies with
    | .error e => .error e
    | .ok deps3 =>
      let data : InternalTask :=
        ⟨id, name, tags, dependencies.foldl (fun s n => (setInsert n s).2) [],
          priority.getD .low, due, created, none, info, []⟩
      .ok (data, writeRecord v id data,
        ⟨id + 1, st.index.insert name id, deps3⟩)

end Task

/-- The `Delete` branch of `program` (src/main.rs): look the token up, load
the task, remove its name from the index, remove its node from the
dependency graph — the returned dependents are DISCARDED — and move the
task file to trash. No dependent task is re-loaded or re-saved, so a
dependent record keeps the deleted id in its stored `dependencies`. -/
def programDelete (v : VaultFiles) (st : ProgState) (tok : String) :
    Except Error (VaultFiles × ProgState) :=
  match st.index.lookup tok with
  | .error e => .error e
  | .ok id =>
    match Task.load v id with
    | .error e => .error e
    | .ok task =>
      let idx2 := st.index.remove task.name task.id
      let deps2 := (st.deps.remove_node task.id).2
      .ok (deleteRecord v task.id, ⟨st.next_id, idx2, deps2⟩)

/-- src/edit.rs `edit_raw` after the editor subprocess succeeded: the
validation chain (time-entry durations, unchanged id, non-numeric name),
the graph update on a dependency change (remove the old edges, insert the
new ones, abort on a found cycle), the index update on a name change, and
the save of the edited record at the original path. The editor and the
temporary file are outside the model: the function receives the stored and
the edited record. -/
def edit_raw (orig edited : InternalTask) (v : VaultFiles) (st : ProgState) :
    Except Error (VaultFiles × ProgState) :=
  if !(edited.time_entries.all (fun e => e.duration.satisfies_invariant)) then
    .error (.generic .durationInvariant)
  else if edited.id ≠ orig.id then
    .error (.generic .idChanged)
  else if nameIsPurelyNumeric edited.name then
    .error (.generic .numericName)
  else
    let step1 : Except Error Graph :=
      if edited.dependencies ≠ orig.dependencies then
        let g1 := (recordDeps orig).foldl
          (fun g d => (Graph.remove_edge g orig.id d).2) st.deps
        match insertDepEdges g1 orig.id (recordDeps edited) with
        | .error e => .error e
        | .ok g2 =>
          match g2.find_cycle with
          | some cycle => .error (.generic (.circularDependency cycle))
          | none => .ok g2
      else .ok st.deps
    match step1 with
    | .error e => .error e
    | .ok deps2 =>
      let idx2 :=
        if edited.name ≠ orig.name then
          (st.index.remove orig.name orig.id).insert edited.name orig.id
        else st.index
      .ok (writeRecord v orig.id edited, ⟨st.next_id, idx2, deps2⟩)

/-- src/state.rs `InternalState`: only `next_id` and a plain name map — in
particular NO dependency-graph field, although src/main.rs reads
`state.data.deps` and calls `Index` methods on `state.data.index`; this
file of the snapshot predates the rest (claim C2). -/
structure InternalState where
  next_id : TaskId
  index : List (String × List TaskId)
  deriving DecidableEq, Repr

/-- The bootstrap branch of src/state.rs `State::load`, taken when the
state file is absent: `next_id` becomes one more than the largest id among
the task file names (0 when there are none, via the `max_id : i128 = -1`
sentinel), and the name index is rebuilt from every record name exactly as
`Index::create` does. No dependency graph is rebuilt: `InternalState` has
no field for one. -/
def State_load_bootstrap (v : VaultFiles) : InternalState :=
  ⟨v.foldl (fun m p => max m (p.1 + 1)) 0,
    (Index.create (v.map (fun p => (p.2.name, p.2.id)))).map⟩

/-- The dependency graph the specification requires the bootstrap to
rebuild: `Graph::create` (src/graph.rs) applied to every record id with its
stored dependency set — the computation the bootstrap in src/state.rs
omits. -/
def specRequiredGraph (v : VaultFiles) : Graph :=
  Graph.create (v.map (fun p => (p.2.id, recordDeps p.2)))

/-- One user-visible vault operation for the session model of claim C7.
`create` carries the arguments of `Task::new` that influence id allocation
and issuance (name and dependency list); the remaining arguments are fixed
to defaults by the session runner. -/
inductive VaultOp where
  | create (name : String) (dependencies : List TaskId)
  | delete (tok : String)
  deriving DecidableEq, Repr

/-- Runs a session of operations against one loaded vault state, returning
the ids issued to successfully created tasks in order. On the first error
`program` (src/main.rs) aborts, ending the session. -/
def sessionRun : VaultFiles × ProgState → List VaultOp → List TaskId
  | _, [] => []
  | (v, st), .create name deps :: ops =>
    match Task.new name none [] deps none none 0 v st with
    | .error _ => []
    | .ok r => r.1.id :: sessionRun (r.2.1, r.2.2) ops
  | (v, st), .delete tok :: ops =>
    match programDelete v st tok with
    | .error _ => []
    | .ok r => sessionRun (r.1, r.2) ops

namespace Graph

theorem lookup_isSome_iff (l : List (TaskId × List TaskId)) (n : TaskId) :
    (l.lookup n).isSome = true ↔ n ∈ l.map (fun p => p.1) := by
  induction l with
  | nil => simp [List.lookup]
  | cons p t ih =>
    obtain ⟨k, v⟩ := p
    by_cases h : n = k
    · subst h; simp [List.lookup]
    · have hbeq : (n == k) = false := beq_eq_false_iff_ne.mpr h
      simp only [List.lookup, hbeq, List.map_cons, List.mem_cons]
      rw [ih]
      tauto

theorem contains_iff_mem_nodesF (g : Graph) (n : TaskId) :
    g.contains_node n = true ↔ n ∈ g.nodesF := by
  rw [contains_node, lookup_isSome_iff, nodesF, nodeKeys, List.mem_toFinset]

theorem edge_contains_src {g : Graph} {a b : TaskId} (h : g.Edge a b) :
    g.contains_node a = true := by
  rw [Edge, neighbors] at h
  rw [contains_node]
  cases hl : g.edges.lookup a with
  | none => rw [hl] at h; simp at h
  | some v => rfl

theorem mem_neighbors_nodesF {g : Graph} (hc : g.Closed) {a b : TaskId}
    (h : b ∈ g.neighbors a) : b ∈ g.nodesF :=
  (contains_iff_mem_nodesF g b).mp (hc a b h)

theorem mem_setInsert (a b : TaskId) (l : List TaskId) :
    b ∈ (setInsert a l).2 ↔ b = a ∨ b ∈ l := by
  induction l with
  | nil => simp [setInsert]
  | cons c t ih =>
    by_cases h1 : a < c
    · simp [setInsert, h1]
    · by_cases h2 : a = c
      · subst h2
        simp [setInsert, h1]
      · simp only [setInsert, if_neg h1, if_neg h2, List.mem_cons, ih]
        tauto

theorem pairwise_setInsert (a : TaskId) (l : List TaskId)
    (h : l.Pairwise (· < ·)) : (setInsert a l).2.Pairwise (· < ·) := by
  induction l with
  | nil => simp [setInsert]
  | cons c t ih =>
    rw [List.pairwise_cons] at h
    by_cases h1 : a < c
    · rw [setInsert, if_pos h1]
      refine List.pairwise_cons.mpr ⟨?_, List.pairwise_cons.mpr h⟩
      intro x hx
      rcases List.mem_cons.mp hx with rfl | hx
      · exact h1
      · exact h1.trans (h.1 x hx)
    · by_cases h2 : a = c
      · rw [setInsert, if_neg h1, if_pos h2]
        exact List.pairwise_cons.mpr h
      · rw [setInsert, if_neg h1, if_neg h2]
        refine List.pairwise_cons.mpr ⟨?_, ih h.2⟩
        intro x hx
        rcases (mem_setInsert a x t).mp hx with h3 | hx
        · subst h3
          exact lt_of_le_of_ne (Nat.le_of_not_lt h1) (Ne.symm h2)
        · exact h.1 x hx

theorem pairwise_unvisitedInit (g : Graph) :
    g.unvisitedInit.Pairwise (· < ·) := by
  rw [unvisitedInit]
  generalize g.nodeKeys = ks
  have h : ∀ (ks : List TaskId) (acc : List TaskId), acc.Pairwise (· < ·) →
      (ks.foldl (fun s n => (setInsert n s).2) acc).Pairwise (· < ·) := by
    intro ks
    induction ks with
    | nil => intro acc h; simpa using h
    | cons k t ih =>
      intro acc hacc
      exact ih _ (pairwise_setInsert k acc hacc)
  exact h ks [] (by simp)

theorem nodup_unvisitedInit (g : Graph) : g.unvisitedInit.Nodup :=
  (pairwise_unvisitedInit g).imp (fun h => Nat.ne_of_lt h)

theorem mem_unvisitedInit (g : Graph) (x : TaskId) :
    x ∈ g.unvisitedInit ↔ x ∈ g.nodeKeys := by
  rw [unvisitedInit]
  generalize g.nodeKeys = ks
  have h : ∀ (ks : List TaskId) (acc : List TaskId),
      x ∈ ks.foldl (fun s n => (setInsert n s).2) acc ↔ x ∈ acc ∨ x ∈ ks := by
    intro ks
    induction ks with
    | nil => intro acc; simp
    | cons k t ih =>
      intro acc
      rw [List.foldl_cons, ih, mem_setInsert]
      simp
      tauto
  rw [h ks []]
  simp

theorem mem_unvisitedInit_nodesF (g : Graph) (x : TaskId) :
    x ∈ g.unvisitedInit ↔ x ∈ g.nodesF := by
  rw [mem_unvisitedInit, nodesF, List.mem_toFinset]

/-- After a local search that found no cycle, `current_path_visited` holds
exactly the entry set plus the start node (the loop removes every searched
child again), so the caller restores it by erasing the child. -/
theorem fcl_restore (g : Graph) : ∀ f : Nat,
    (∀ start unv cpv unv2 cpv2,
      fcl g f start unv cpv = some (none, unv2, cpv2) →
        start ∉ cpv ∧ cpv2 = insert start cpv) ∧
    (∀ start cs unv cpv unv2 cpv2,
      fclLoop (fcl g f) start cs unv cpv = some (none, unv2, cpv2) →
        cpv2 = cpv) := by
  intro f
  induction f with
  | zero =>
    constructor
    · intro start unv cpv unv2 cpv2 h
      simp [fcl] at h
    · intro start cs
      induction cs with
      | nil =>
        intro unv cpv unv2 cpv2 h
        simp only [fclLoop, Option.some.injEq, Prod.mk.injEq] at h
        exact h.2.2.symm
      | cons c cs ih =>
        intro unv cpv unv2 cpv2 h
        simp [fclLoop, fcl] at h
  | succ f ihf =>
    have hf : ∀ start unv cpv unv2 cpv2,
        fcl g (f + 1) start unv cpv = some (none, unv2, cpv2) →
          start ∉ cpv ∧ cpv2 = insert start cpv := by
      intro start unv cpv unv2 cpv2 h
      rw [fcl] at h
      by_cases hs : start ∈ cpv
      · rw [if_pos hs] at h
        simp at h
      · rw [if_neg hs] at h
        exact ⟨hs, ihf.2 start _ _ _ _ _ h⟩
    refine ⟨hf, ?_⟩
    intro start cs
    induction cs with
    | nil =>
      intro unv cpv unv2 cpv2 h
      simp only [fclLoop, Option.some.injEq, Prod.mk.injEq] at h
      exact h.2.2.symm
    | cons c cs ih =>
      intro unv cpv unv2 cpv2 h
      rw [fclLoop] at h
      split at h
      · simp at h
      · simp at h
      · rename_i u2 k2 heq
        obtain ⟨hcn, hck⟩ := hf c unv cpv u2 k2 heq
        have h2 := ih u2 (k2.erase c) unv2 cpv2 h
        rw [h2, hck]
        exact Finset.erase_insert hcn

/-- Fuel adequacy for the local search: on a closed graph, one unit more than
the number of nodes outside `current_path_visited` suffices, because every
recursion step moves a node into that set. -/
theorem fcl_ne_none_of_fuel (g : Graph) (hc : g.Closed) : ∀ f : Nat,
    (∀ start unv cpv, start ∈ g.nodesF → (g.nodesF \ cpv).card + 1 ≤ f →
      fcl g f start unv cpv ≠ none) ∧
    (∀ start cs unv cpv, (∀ c ∈ cs, c ∈ g.nodesF) →
      (g.nodesF \ cpv).card + 1 ≤ f →
      fclLoop (fcl g f) start cs unv cpv ≠ none) := by
  intro f
  induction f with
  | zero =>
    constructor
    · intro start unv cpv hs hfuel
      omega
    · intro start cs unv cpv hmem hfuel
      omega
  | succ f ihf =>
    have hf : ∀ start unv cpv, start ∈ g.nodesF →
        (g.nodesF \ cpv).card + 1 ≤ f + 1 → fcl g (f + 1) start unv cpv ≠ none := by
      intro start unv cpv hs hfuel
      rw [fcl]
      by_cases hcp : start ∈ cpv
      · rw [if_pos hcp]
        simp
      · rw [if_neg hcp]
        have hmem : start ∈ g.nodesF \ cpv := Finset.mem_sdiff.mpr ⟨hs, hcp⟩
        have hcard : (g.nodesF \ insert start cpv).card + 1 ≤ f := by
          rw [Finset.sdiff_insert, Finset.card_erase_of_mem hmem]
          have hpos : 0 < (g.nodesF \ cpv).card := Finset.card_pos.mpr ⟨start, hmem⟩
          omega
        exact ihf.2 start (g.neighbors start) (unv.erase start) (insert start cpv)
          (fun c hcm => mem_neighbors_nodesF hc hcm) hcard
    refine ⟨hf, ?_⟩
    intro start cs
    induction cs with
    | nil =>
      intro unv cpv hmem hfuel
      simp [fclLoop]
    | cons c cs ih =>
      intro unv cpv hmem hfuel
      rw [fclLoop]
      split
      · rename_i heq
        exact absurd heq (hf c unv cpv (hmem c (by simp)) hfuel)
      · simp
      · rename_i u2 k2 heq
        obtain ⟨hcn, hck⟩ := (fcl_restore g (f + 1)).1 c unv cpv u2 k2 heq
        rw [hck, Finset.erase_insert hcn]
        exact ih u2 cpv (fun x hx => hmem x (by simp [hx])) hfuel

/-- The local search only shrinks `unvisited`, removes its own start node,
and removes only nodes reachable from the start (for the loop: reachable
from one of the children remaining to visit). -/
theorem fcl_unvisited (g : Graph) : ∀ f : Nat,
    (∀ start unv cpv r unv2 cpv2,
      fcl g f start unv cpv = some (r, unv2, cpv2) →
        unv2.Sublist unv ∧ (unv.Nodup → start ∉ cpv → start ∉ unv2) ∧
        ∀ x ∈ unv, x ∉ unv2 → Relation.ReflTransGen g.Edge start x) ∧
    (∀ start cs unv cpv r unv2 cpv2,
      fclLoop (fcl g f) start cs unv cpv = some (r, unv2, cpv2) →
        unv2.Sublist unv ∧
        ∀ x ∈ unv, x ∉ unv2 → ∃ c ∈ cs, Relation.ReflTransGen g.Edge c x) := by
  intro f
  induction f with
  | zero =>
    constructor
    · intro start unv cpv r unv2 cpv2 h
      simp [fcl] at h
    · intro start cs
      induction cs with
      | nil =>
        intro unv cpv r unv2 cpv2 h
        simp only [fclLoop, Option.some.injEq, Prod.mk.injEq] at h
        obtain ⟨-, rfl, -⟩ := h
        exact ⟨List.Sublist.refl unv, fun x hx hxn => absurd hx hxn⟩
      | cons c cs ih =>
        intro unv cpv r unv2 cpv2 h
        simp [fclLoop, fcl] at h
  | succ f ihf =>
    have hf : ∀ start unv cpv r unv2 cpv2,
        fcl g (f + 1) start unv cpv = some (r, unv2, cpv2) →
          unv2.Sublist unv ∧ (unv.Nodup → start ∉ cpv → start ∉ unv2) ∧
          ∀ x ∈ unv, x ∉ unv2 → Relation.ReflTransGen g.Edge start x := by
      intro start unv cpv r unv2 cpv2 h
      rw [fcl] at h
      by_cases hcp : start ∈ cpv
      · rw [if_pos hcp] at h
        simp only [Option.some.injEq, Prod.mk.injEq] at h
        obtain ⟨-, rfl, -⟩ := h
        exact ⟨List.Sublist.refl unv, fun _ h2 => absurd hcp h2,
          fun x hx hxn => absurd hx hxn⟩
      · rw [if_neg hcp] at h
        obtain ⟨hsub, hrm⟩ := ihf.2 start (g.neighbors start) (unv.erase start)
          (insert start cpv) r unv2 cpv2 h
        refine ⟨hsub.trans (List.erase_sublist start unv), ?_, ?_⟩
        · intro hnd _ hmem
          have : start ∈ unv.erase start := hsub.subset hmem
          rw [List.Nodup.mem_erase_iff hnd] at this
          exact this.1 rfl
        · intro x hx hxn
          by_cases hxs : x = start
          · subst hxs
            exact Relation.ReflTransGen.refl
          · have hxe : x ∈ unv.erase start := (List.mem_erase_of_ne hxs).mpr hx
            obtain ⟨c, hcm, hrtg⟩ := hrm x hxe hxn
            exact Relation.ReflTransGen.head hcm hrtg
    refine ⟨hf, ?_⟩
    intro start cs
    induction cs with
    | nil =>
      intro unv cpv r unv2 cpv2 h
      simp only [fclLoop, Option.some.injEq, Prod.mk.injEq] at h
      obtain ⟨-, rfl, -⟩ := h
      exact ⟨List.Sublist.refl unv, fun x hx hxn => absurd hx hxn⟩
    | cons c cs ih =>
      intro unv cpv r unv2 cpv2 h
      rw [fclLoop] at h
      split at h
      · simp at h
      · rename_i path u2 k2 heq
        simp only [Option.some.injEq, Prod.mk.injEq] at h
        obtain ⟨-, h2, -⟩ := h
        subst h2
        obtain ⟨hsub, -, hrm⟩ := hf c unv cpv (some path) _ k2 heq
        exact ⟨hsub, fun x hx hxn => ⟨c, by simp, hrm x hx hxn⟩⟩
      · rename_i u2 k2 heq
        obtain ⟨hsub1, -, hrm1⟩ := hf c unv cpv none u2 k2 heq
        obtain ⟨hsub2, hrm2⟩ := ih u2 (k2.erase c) r unv2 cpv2 h
        refine ⟨hsub2.trans hsub1, ?_⟩
        intro x hx hxn
        by_cases hxu : x ∈ u2
        · obtain ⟨c2, hc2m, hrtg⟩ := hrm2 x hxu hxn
          exact ⟨c2, by simp [hc2m], hrtg⟩
        · exact ⟨c, by simp, hrm1 x hx hxu⟩

theorem getLast?_mem_tail {p : List TaskId} {a : TaskId}
    (hl : 2 ≤ p.length) (hg : p.getLast? = some a) : a ∈ p.tail := by
  match p, hl with
  | x :: y :: t, _ =>
    have h2 : (y :: t).getLast? = some a := by
      rw [← hg, List.getLast?_cons_cons]
    have hmem : a ∈ (y :: t).getLast? := by rw [h2]; rfl
    obtain ⟨hne, heq⟩ := List.mem_getLast?_eq_getLast hmem
    rw [List.tail_cons, heq]
    exact List.getLast_mem hne

/-- Shape of a returned cycle path: it is nonempty, ends with the node the
search started from, every consecutive pair read right to left is an edge of
the graph, and its first element was already on the current path (it lies in
the entry `current_path_visited` set, or reoccurs later in the path). -/
theorem fcl_path (g : Graph) : ∀ f : Nat,
    (∀ start unv cpv p unv2 cpv2,
      fcl g f start unv cpv = some (some p, unv2, cpv2) →
        p ≠ [] ∧ p.getLast? = some start ∧
        List.Chain' (fun a b => g.Edge b a) p ∧
        ∀ w, p.head? = some w → w ∈ cpv ∨ w ∈ p.tail) ∧
    (∀ start cs unv cpv p unv2 cpv2,
      fclLoop (fcl g f) start cs unv cpv = some (some p, unv2, cpv2) →
      (∀ c ∈ cs, g.Edge start c) →
        2 ≤ p.length ∧ p.getLast? = some start ∧
        List.Chain' (fun a b => g.Edge b a) p ∧
        ∀ w, p.head? = some w → w ∈ cpv ∨ w ∈ p.tail) := by
  intro f
  induction f with
  | zero =>
    constructor
    · intro start unv cpv p unv2 cpv2 h
      simp [fcl] at h
    · intro start cs
      induction cs with
      | nil =>
        intro unv cpv p unv2 cpv2 h
        simp [fclLoop] at h
      | cons c cs ih =>
        intro unv cpv p unv2 cpv2 h
        simp [fclLoop, fcl] at h
  | succ f ihf =>
    have hf : ∀ start unv cpv p unv2 cpv2,
        fcl g (f + 1) start unv cpv = some (some p, unv2, cpv2) →
          p ≠ [] ∧ p.getLast? = some start ∧
          List.Chain' (fun a b => g.Edge b a) p ∧
          ∀ w, p.head? = some w → w ∈ cpv ∨ w ∈ p.tail := by
      intro start unv cpv p unv2 cpv2 h
      rw [fcl] at h
      by_cases hcp : start ∈ cpv
      · rw [if_pos hcp] at h
        simp only [Option.some.injEq, Prod.mk.injEq] at h
        obtain ⟨h1, -, -⟩ := h
        subst h1
        refine ⟨by simp, by simp, by simp, ?_⟩
        intro w hw
        simp at hw
        subst hw
        exact Or.inl hcp
      · rw [if_neg hcp] at h
        obtain ⟨hlen, hlast, hchain, hhead⟩ := ihf.2 start (g.neighbors start)
          (unv.erase start) (insert start cpv) p unv2 cpv2 h (fun c hc => hc)
        refine ⟨?_, hlast, hchain, ?_⟩
        · intro hnil
          rw [hnil] at hlen
          simp at hlen
        · intro w hw
          rcases hhead w hw with hmem | htail
          · rcases Finset.mem_insert.mp hmem with h1 | h1
            · subst h1
              exact Or.inr (getLast?_mem_tail hlen hlast)
            · exact Or.inl h1
          · exact Or.inr htail
    refine ⟨hf, ?_⟩
    intro start cs
    induction cs with
    | nil =>
      intro unv cpv p unv2 cpv2 h
      simp [fclLoop] at h
    | cons c cs ih =>
      intro unv cpv p unv2 cpv2 h hedge
      rw [fclLoop] at h
      split at h
      · simp at h
      · rename_i path u2 k2 heq
        simp only [Option.some.injEq, Prod.mk.injEq] at h
        obtain ⟨h1, -, -⟩ := h
        subst h1
        obtain ⟨hne_c, hlast_c, hchain_c, hhead_c⟩ := hf c unv cpv path u2 k2 heq
        cases path with
        | nil => exact absurd rfl hne_c
        | cons c0 t =>
          have hedge_c : g.Edge start c := hedge c (by simp)
          refine ⟨by simp, ?_, ?_, ?_⟩
          · rw [List.getLast?_append_cons]
            rfl
          · refine List.chain'_append.mpr ⟨hchain_c, by simp, ?_⟩
            intro x hx y hy
            simp at hy
            subst hy
            have : x = c := by
              have := List.mem_getLast?_eq_getLast hx
              rw [hlast_c] at hx
              simpa using hx.symm
            subst this
            exact hedge_c
          · intro w hw
            simp only [List.cons_append, List.head?_cons, Option.some.injEq] at hw
            subst hw
            rcases hhead_c c0 (by rfl) with h1 | h1
            · exact Or.inl h1
            · refine Or.inr ?_
              simp only [List.cons_append, List.tail_cons]
              simp only [List.tail_cons] at h1
              exact List.mem_append.mpr (Or.inl h1)
      · rename_i u2 k2 heq
        obtain ⟨hcn, hck⟩ := (fcl_restore g (f + 1)).1 c unv cpv u2 k2 heq
        rw [hck, Finset.erase_insert hcn] at h
        exact ih u2 cpv p unv2 cpv2 h (fun x hx => hedge x (by simp [hx]))

theorem Hits.mono {g : Graph} {S T : Finset TaskId} {v : TaskId}
    (h : Hits g S v) (hsub : S ⊆ T) : Hits g T v := by
  induction h generalizing T with
  | base hm => exact .base (hsub hm)
  | step he _ ih => exact .step he (ih (Finset.insert_subset_insert _ hsub))

theorem hits_of_reflTransGen {g : Graph} {u v : TaskId}
    (hw : Relation.ReflTransGen g.Edge u v) :
    ∀ S : Finset TaskId, Hits g S v → Hits g S u := by
  induction hw using Relation.ReflTransGen.head_induction_on with
  | refl => exact fun S h => h
  | head hab _ ih =>
    intro S hv
    exact .step hab (ih (insert _ S) (hv.mono (Finset.subset_insert _ S)))

theorem hits_of_cycle {g : Graph} {v : TaskId}
    (h : Relation.TransGen g.Edge v v) : Hits g ∅ v := by
  obtain ⟨b, hvb, hbv⟩ := Relation.TransGen.head'_iff.mp h
  exact .step hvb (hits_of_reflTransGen hbv _ (.base (by simp)))

theorem cycle_of_hits {g : Graph} {S : Finset TaskId} {u : TaskId}
    (h : Hits g S u) :
    (∃ x ∈ S, Relation.ReflTransGen g.Edge u x) ∨
      ∃ v, Relation.TransGen g.Edge v v := by
  induction h with
  | base hm => exact Or.inl ⟨_, hm, Relation.ReflTransGen.refl⟩
  | step he _ ih =>
    rcases ih with ⟨x, hx, hrtg⟩ | hcyc
    · rcases Finset.mem_insert.mp hx with h1 | h1
      · subst h1
        exact Or.inr ⟨_, Relation.TransGen.head' he hrtg⟩
      · exact Or.inl ⟨x, h1, Relation.ReflTransGen.head he hrtg⟩
    · exact Or.inr hcyc

/-- If some remaining child search is bound to find a cycle, so is the loop
over the children (earlier children either find one themselves or leave the
state unchanged apart from `unvisited`). -/
theorem fclLoop_finds (g : Graph) (hc : g.Closed) (f : Nat) :
    ∀ cs start unv cpv c, (∀ x ∈ cs, x ∈ g.nodesF) →
      (g.nodesF \ cpv).card + 1 ≤ f → c ∈ cs →
      (∀ unv0, ∃ p u2 k2, fcl g f c unv0 cpv = some (some p, u2, k2)) →
      ∃ p u2 k2, fclLoop (fcl g f) start cs unv cpv = some (some p, u2, k2) := by
  intro cs
  induction cs with
  | nil =>
    intro start unv cpv c _ _ hmem _
    simp at hmem
  | cons c0 cs ih =>
    intro start unv cpv c hns hfuel hmem hfind
    rw [fclLoop]
    by_cases hcc : c0 = c
    · subst hcc
      obtain ⟨p, u2, k2, hp⟩ := hfind unv
      rw [hp]
      exact ⟨p ++ [start], u2, k2, rfl⟩
    · cases hcall : fcl g f c0 unv cpv with
      | none =>
        exact absurd hcall
          ((fcl_ne_none_of_fuel g hc f).1 c0 unv cpv (hns c0 (by simp)) hfuel)
      | some r =>
        obtain ⟨ro, u2, k2⟩ := r
        cases ro with
        | some path =>
          exact ⟨path ++ [start], u2, k2, rfl⟩
        | none =>
          obtain ⟨hcn, hck⟩ := (fcl_restore g f).1 c0 unv cpv u2 k2 hcall
          have hmem2 : c ∈ cs := by
            rcases List.mem_cons.mp hmem with h1 | h1
            · exact absurd h1.symm hcc
            · exact h1
          obtain ⟨p, u3, k3, hp⟩ :=
            ih start u2 cpv c (fun x hx => hns x (by simp [hx])) hfuel hmem2 hfind
          refine ⟨p, u3, k3, ?_⟩
          show fclLoop (fcl g f) start cs u2 (k2.erase c0) = some (some p, u3, k3)
          rw [hck, Finset.erase_insert hcn]
          exact hp

/-- Completeness of the local search: a walk witnessing `Hits` forces the
search to report a cycle (given sufficient fuel on a closed graph). -/
theorem fcl_finds_of_hits (g : Graph) (hc : g.Closed) :
    ∀ {S : Finset TaskId} {start : TaskId}, Hits g S start →
      ∀ f unv, start ∈ g.nodesF → (g.nodesF \ S).card + 1 ≤ f →
      ∃ p u2 k2, fcl g f start unv S = some (some p, u2, k2) := by
  intro S start h
  induction h with
  | base hm =>
    intro f unv _ hfuel
    obtain ⟨f, rfl⟩ : ∃ f2, f = f2 + 1 := ⟨f - 1, by omega⟩
    rw [fcl, if_pos hm]
    exact ⟨_, _, _, rfl⟩
  | @step S' v c he _ ih =>
    intro f unv hs hfuel
    obtain ⟨f, rfl⟩ : ∃ f2, f = f2 + 1 := ⟨f - 1, by omega⟩
    rw [fcl]
    by_cases hcp : v ∈ S'
    · rw [if_pos hcp]
      exact ⟨_, _, _, rfl⟩
    · rw [if_neg hcp]
      have hcN : c ∈ g.nodesF := mem_neighbors_nodesF hc he
      have hmemv : v ∈ g.nodesF \ S' := Finset.mem_sdiff.mpr ⟨hs, hcp⟩
      have hcard : (g.nodesF \ insert v S').card + 1 ≤ f := by
        rw [Finset.sdiff_insert, Finset.card_erase_of_mem hmemv]
        have hpos : 0 < (g.nodesF \ S').card := Finset.card_pos.mpr ⟨v, hmemv⟩
        omega
      exact fclLoop_finds g hc f (g.neighbors v) v (unv.erase v) (insert v S') c
        (fun x hx => mem_neighbors_nodesF hc hx) hcard he
        (fun unv0 => ih f unv0 hcN hcard)

/-- The fuel of the inner search as used by `find_cycle` is sufficient:
there are at least as many map entries as nodes. -/
theorem inner_fuel_ok (g : Graph) :
    (g.nodesF \ (∅ : Finset TaskId)).card + 1 ≤ g.edges.length + 1 := by
  rw [Finset.sdiff_empty, nodesF]
  have h := List.toFinset_card_le g.nodeKeys
  have h2 : g.nodeKeys.length = g.edges.length := by
    rw [nodeKeys, List.length_map]
  omega

/-- Completeness of the outer loop: while a node from which a revisiting
walk exists is still unvisited, the loop reports a cycle. -/
theorem findCycleLoop_finds (g : Graph) (hc : g.Closed) : ∀ (f : Nat) (unv : List TaskId),
    (∀ x ∈ unv, x ∈ g.nodesF) → unv.Nodup → unv.length + 1 ≤ f →
    (∃ v ∈ unv, Hits g ∅ v) →
    ∃ p, findCycleLoop g f unv = some (some p) := by
  intro f
  induction f with
  | zero =>
    intro unv _ _ hlen _
    omega
  | succ f ih =>
    intro unv hns hnd hlen hex
    obtain ⟨v, hvm, hvh⟩ := hex
    cases unv with
    | nil => simp at hvm
    | cons start rest =>
      rw [findCycleLoop]
      have hsN : start ∈ g.nodesF := hns start (by simp)
      cases hcall : fcl g (g.edges.length + 1) start (start :: rest) ∅ with
      | none =>
        exact absurd hcall
          ((fcl_ne_none_of_fuel g hc _).1 start _ ∅ hsN (inner_fuel_ok g))
      | some r =>
        obtain ⟨ro, u2, k2⟩ := r
        cases ro with
        | some path => exact ⟨path, rfl⟩
        | none =>
          obtain ⟨hsub, hstart, hrm⟩ :=
            (fcl_unvisited g _).1 start (start :: rest) ∅ none u2 k2 hcall
          have hstartOut : start ∉ u2 := hstart hnd (Finset.not_mem_empty start)
          have hvin : v ∈ u2 := by
            by_contra hvout
            have hhit : Hits g ∅ start :=
              hits_of_reflTransGen (hrm v hvm hvout) ∅ hvh
            obtain ⟨p, u3, k3, hp⟩ := fcl_finds_of_hits g hc hhit
              (g.edges.length + 1) (start :: rest) hsN (inner_fuel_ok g)
            rw [hcall] at hp
            simp at hp
          have hne : u2 ≠ start :: rest := by
            intro heq
            rw [heq] at hstartOut
            exact hstartOut (by simp)
          have hlt : u2.length < (start :: rest).length :=
            lt_of_le_of_ne hsub.length_le (fun hl => hne (hsub.eq_of_length hl))
          exact ih u2 (fun x hx => hns x (hsub.subset hx)) (hnd.sublist hsub)
            (by omega) ⟨v, hvin, hvh⟩

/-- Fuel adequacy for the outer loop: one unit more than the length of the
unvisited list suffices, as every iteration strictly shrinks it. -/
theorem findCycleLoop_ne_none_of_fuel (g : Graph) (hc : g.Closed) :
    ∀ (f : Nat) (unv : List TaskId),
    (∀ x ∈ unv, x ∈ g.nodesF) → unv.Nodup → unv.length + 1 ≤ f →
    findCycleLoop g f unv ≠ none := by
  intro f
  induction f with
  | zero =>
    intro unv _ _ hlen
    omega
  | succ f ih =>
    intro unv hns hnd hlen
    cases unv with
    | nil => simp [findCycleLoop]
    | cons start rest =>
      rw [findCycleLoop]
      have hsN : start ∈ g.nodesF := hns start (by simp)
      cases hcall : fcl g (g.edges.length + 1) start (start :: rest) ∅ with
      | none =>
        exact absurd hcall
          ((fcl_ne_none_of_fuel g hc _).1 start _ ∅ hsN (inner_fuel_ok g))
      | some r =>
        obtain ⟨ro, u2, k2⟩ := r
        cases ro with
        | some path => simp
        | none =>
          obtain ⟨hsub, hstart, -⟩ :=
            (fcl_unvisited g _).1 start (start :: rest) ∅ none u2 k2 hcall
          have hstartOut : start ∉ u2 := hstart hnd (Finset.not_mem_empty start)
          have hne : u2 ≠ start :: rest := by
            intro heq
            rw [heq] at hstartOut
            exact hstartOut (by simp)
          have hlt : u2.length < (start :: rest).length :=
            lt_of_le_of_ne hsub.length_le (fun hl => hne (hsub.eq_of_length hl))
          exact ih u2 (fun x hx => hns x (hsub.subset hx)) (hnd.sublist hsub)
            (by omega)

/-- Any cycle path reported by the outer loop came out of one inner search
started with an empty `current_path_visited` set. -/
theorem findCycleLoop_some (g : Graph) : ∀ (f : Nat) (unv : List TaskId) (p : List TaskId),
    findCycleLoop g f unv = some (some p) →
    ∃ start u0 unv2 k2,
      fcl g (g.edges.length + 1) start u0 ∅ = some (some p, unv2, k2) := by
  intro f
  induction f with
  | zero =>
    intro unv p h
    simp [findCycleLoop] at h
  | succ f ih =>
    intro unv p h
    cases unv with
    | nil => simp [findCycleLoop] at h
    | cons start rest =>
      rw [findCycleLoop] at h
      split at h
      · simp at h
      · rename_i path u2 k2 heq
        simp only [Option.some.injEq] at h
        subst h
        exact ⟨start, start :: rest, u2, k2, heq⟩
      · rename_i u2 k2 heq
        exact ih u2 p h

/-- Reverse edge chains yield transitive reachability: in a list whose
consecutive pairs are edges read right to left, every later element reaches
the head. -/
theorem transGen_of_revChain {g : Graph} : ∀ (t : List TaskId) (a : TaskId),
    List.Chain' (fun x y => g.Edge y x) (a :: t) →
    ∀ x ∈ t, Relation.TransGen g.Edge x a := by
  intro t
  induction t with
  | nil =>
    intro a _ x hx
    simp at hx
  | cons b t2 ih =>
    intro a hch x hx
    rw [List.chain'_cons] at hch
    rcases List.mem_cons.mp hx with h1 | h1
    · subst h1
      exact Relation.TransGen.single hch.1
    · exact Relation.TransGen.tail (ih b hch.2 x h1) hch.1

/-- A path with the shape returned by the search (head element reoccurring,
reverse-edge chain) contains a genuine cycle through its head. -/
theorem cycle_of_path_props {g : Graph} {p : List TaskId} {w : TaskId}
    (hchain : List.Chain' (fun a b => g.Edge b a) p)
    (hhead : p.head? = some w) (htail : w ∈ p.tail) :
    Relation.TransGen g.Edge w w := by
  cases p with
  | nil => simp at hhead
  | cons a t =>
    simp only [List.head?_cons, Option.some.injEq] at hhead
    subst hhead
    rw [List.tail_cons] at htail
    exact transGen_of_revChain t _ hchain _ htail

/-- Soundness of `find_cycle`: any returned path has a head element that
reoccurs in the tail and consecutive pairs that are reverse edges, hence
witnesses a cycle. -/
theorem find_cycle_props (g : Graph) (p : List TaskId)
    (h : g.find_cycle = some p) :
    ∃ w, p.head? = some w ∧ w ∈ p.tail ∧
      List.Chain' (fun a b => g.Edge b a) p ∧ Relation.TransGen g.Edge w w := by
  rw [find_cycle] at h
  split at h
  · rename_i r heq
    subst h
    obtain ⟨start, u0, unv2, k2, hfcl⟩ :=
      findCycleLoop_some g (g.unvisitedInit.length + 1) g.unvisitedInit p heq
    obtain ⟨hne, hlast, hchain, hhead⟩ :=
      (fcl_path g _).1 start u0 ∅ p unv2 k2 hfcl
    cases p with
    | nil => exact absurd rfl hne
    | cons a t =>
      rcases hhead a rfl with h1 | h1
      · exact absurd h1 (Finset.not_mem_empty a)
      · exact ⟨a, rfl, h1, hchain,
          cycle_of_path_props hchain rfl h1⟩
  · rename_i heq
    simp at h

/-- On a closed graph, a cycle forces `find_cycle` to report a path. -/
theorem find_cycle_isSome_of_cycle (g : Graph) (hc : g.Closed)
    (h : ∃ v, Relation.TransGen g.Edge v v) : ∃ p, g.find_cycle = some p := by
  obtain ⟨v, hv⟩ := h
  have hvN : v ∈ g.nodesF := by
    obtain ⟨b, h1, -⟩ := Relation.TransGen.head'_iff.mp hv
    exact (contains_iff_mem_nodesF g v).mp (edge_contains_src h1)
  obtain ⟨p, hp⟩ := findCycleLoop_finds g hc (g.unvisitedInit.length + 1)
    g.unvisitedInit (fun x hx => (mem_unvisitedInit_nodesF g x).mp hx)
    (nodup_unvisitedInit g) (le_refl _) ⟨v, (mem_unvisitedInit_nodesF g v).mpr hvN, hits_of_cycle hv⟩
  refine ⟨p, ?_⟩
  rw [find_cycle, hp]

/-- On a closed acyclic graph, `find_cycle` returns `None`. -/
theorem find_cycle_none_of_acyclic (g : Graph) (_hc : g.Closed)
    (h : ¬ ∃ v, Relation.TransGen g.Edge v v) : g.find_cycle = none := by
  cases hfc : g.find_cycle with
  | none => rfl
  | some p =>
    obtain ⟨w, -, -, -, hcyc⟩ := find_cycle_props g p hfc
    exact absurd ⟨w, hcyc⟩ h

theorem lookup_mem {l : List (TaskId × List TaskId)} {k : TaskId} {v : List TaskId}
    (h : l.lookup k = some v) : (k, v) ∈ l := by
  induction l with
  | nil => simp [List.lookup] at h
  | cons p t ih =>
    obtain ⟨k2, v2⟩ := p
    by_cases hk : k = k2
    · subst hk
      simp [List.lookup] at h
      simp [h]
    · have hbeq : (k == k2) = false := beq_eq_false_iff_ne.mpr hk
      simp only [List.lookup, hbeq] at h
      exact List.mem_cons.mpr (Or.inr (ih h))

theorem closed_of_closedB {g : Graph} (h : g.closedB = true) : g.Closed := by
  intro a b hab
  rw [Edge, neighbors] at hab
  cases hl : g.edges.lookup a with
  | none => rw [hl] at hab; simp at hab
  | some ns =>
    rw [hl] at hab
    simp only [Option.getD_some] at hab
    rw [closedB, List.all_eq_true] at h
    have h2 := h (a, ns) (lookup_mem hl)
    rw [List.all_eq_true] at h2
    exact h2 b hab

theorem lookup_mapInsert_self (k : TaskId) (v : List TaskId)
    (l : List (TaskId × List TaskId)) : (mapInsert k v l).lookup k = some v := by
  induction l with
  | nil => simp [mapInsert, List.lookup]
  | cons p t ih =>
    by_cases h1 : k < p.1
    · simp [mapInsert, h1, List.lookup]
    · by_cases h2 : k = p.1
      · simp [mapInsert, h1, h2, List.lookup]
      · have hbeq : (k == p.1) = false := beq_eq_false_iff_ne.mpr h2
        simp only [mapInsert, if_neg h1, if_neg h2]
        cases p with
        | mk k2 v2 =>
          simp only [List.lookup, hbeq]
          exact ih

theorem lookup_mapInsert_ne {k k2 : TaskId} (v : List TaskId)
    (l : List (TaskId × List TaskId)) (hne : k2 ≠ k) :
    (mapInsert k v l).lookup k2 = l.lookup k2 := by
  have hbeq : (k2 == k) = false := beq_eq_false_iff_ne.mpr hne
  induction l with
  | nil => simp [mapInsert, List.lookup, hbeq]
  | cons p t ih =>
    obtain ⟨k3, v3⟩ := p
    by_cases h1 : k < k3
    · simp only [mapInsert, if_pos h1, List.lookup, hbeq]
    · by_cases h2 : k = k3
      · subst h2
        simp only [mapInsert, lt_irrefl, if_neg h1, if_pos rfl, List.lookup, hbeq]
      · simp only [mapInsert, if_neg h1, if_neg h2, List.lookup]
        cases hc : k2 == k3
        · exact ih
        · rfl

theorem mapInsert_idem (k : TaskId) (v : List TaskId)
    (l : List (TaskId × List TaskId)) :
    mapInsert k v (mapInsert k v l) = mapInsert k v l := by
  induction l with
  | nil => simp [mapInsert]
  | cons p t ih =>
    by_cases h1 : k < p.1
    · simp [mapInsert, h1, lt_irrefl]
    · by_cases h2 : k = p.1
      · simp [mapInsert, h1, h2, lt_irrefl]
      · simp only [mapInsert, if_neg h1, if_neg h2]
        rw [ih]

theorem setInsert_fst_iff (a : TaskId) : ∀ (l : List TaskId),
    l.Pairwise (· < ·) → ((setInsert a l).1 = true ↔ a ∉ l) := by
  intro l
  induction l with
  | nil =>
    intro _
    simp [setInsert]
  | cons b t ih =>
    intro h
    rw [List.pairwise_cons] at h
    by_cases h1 : a < b
    · have hnm : a ∉ b :: t := by
        intro hmem
        rcases List.mem_cons.mp hmem with h2 | h2
        · exact absurd h1 (by rw [h2]; exact lt_irrefl b)
        · have hba : b < a := h.1 a h2
          exact absurd h1 (Nat.lt_asymm hba)
      rw [setInsert, if_pos h1]
      simp [hnm]
    · by_cases h2 : a = b
      · subst h2
        rw [setInsert, if_neg h1, if_pos rfl]
        simp
      · rw [setInsert, if_neg h1, if_neg h2]
        have hiff := ih h.2
        simp only [List.mem_cons]
        constructor
        · intro h3 h4
          rcases h4 with h4 | h4
          · exact h2 h4
          · exact (hiff.mp h3) h4
        · intro h3
          exact hiff.mpr (fun h4 => h3 (Or.inr h4))

theorem setInsert_of_mem (a : TaskId) : ∀ (l : List TaskId),
    l.Pairwise (· < ·) → a ∈ l → setInsert a l = (false, l) := by
  intro l
  induction l with
  | nil =>
    intro _ hm
    simp at hm
  | cons b t ih =>
    intro h hm
    rw [List.pairwise_cons] at h
    rcases List.mem_cons.mp hm with h1 | h1
    · subst h1
      rw [setInsert, if_neg (lt_irrefl a), if_pos rfl]
    · have hba : b < a := h.1 a h1
      have h1lt : ¬a < b := Nat.lt_asymm hba
      have h2eq : ¬a = b := (Nat.ne_of_lt hba).symm
      rw [setInsert, if_neg h1lt, if_neg h2eq, ih h.2 h1]

/-- Characterisation of a successful `insert_edge` call. -/
theorem insert_edge_ok {g : Graph} {a b : TaskId} {add : Bool} {g2 : Graph}
    (h : g.insert_edge a b = .ok (add, g2)) :
    g.contains_node a = true ∧ g.contains_node b = true ∧ a ≠ b ∧
      add = (setInsert b (g.neighbors a)).1 ∧
      g2 = ⟨mapInsert a (setInsert b (g.neighbors a)).2 g.edges⟩ := by
  rw [insert_edge] at h
  split at h
  · simp at h
  · rename_i h1
    split at h
    · simp at h
    · rename_i h2
      simp only [Except.ok.injEq, Prod.mk.injEq] at h
      have hA : g.contains_node a = true := by
        cases hca : g.contains_node a
        · exact absurd (by simp [hca]) h1
        · rfl
      have hB : g.contains_node b = true := by
        cases hcb : g.contains_node b
        · exact absurd (by simp [hcb]) h1
        · rfl
      exact ⟨hA, hB, h2, h.1.symm, h.2.symm⟩

theorem edge_after_insert_edge {g g2 : Graph} {a b : TaskId} {add : Bool}
    (h : g.insert_edge a b = .ok (add, g2)) {x y : TaskId} (hxy : g2.Edge x y) :
    (x = a ∧ y = b) ∨ g.Edge x y := by
  obtain ⟨-, -, -, -, hg2⟩ := insert_edge_ok h
  subst hg2
  rw [Edge, neighbors] at hxy
  by_cases hx : x = a
  · subst hx
    rw [lookup_mapInsert_self] at hxy
    simp only [Option.getD_some] at hxy
    rcases (mem_setInsert b y (g.neighbors x)).mp hxy with h1 | h1
    · exact Or.inl ⟨rfl, h1⟩
    · exact Or.inr h1
  · rw [lookup_mapInsert_ne _ _ hx] at hxy
    exact Or.inr hxy

theorem contains_after_insert_edge {g g2 : Graph} {a b : TaskId} {add : Bool}
    (h : g.insert_edge a b = .ok (add, g2)) (x : TaskId)
    (hx : g.contains_node x = true) : g2.contains_node x = true := by
  obtain ⟨-, -, -, -, hg2⟩ := insert_edge_ok h
  subst hg2
  rw [contains_node]
  by_cases hxa : x = a
  · subst hxa
    rw [lookup_mapInsert_self]
    rfl
  · rw [lookup_mapInsert_ne _ _ hxa]
    exact hx

theorem edge_after_insert_node {g : Graph} {n x y : TaskId}
    (hxy : (g.insert_node n).2.Edge x y) : g.Edge x y := by
  rw [insert_node] at hxy
  rw [Edge, neighbors] at hxy
  by_cases hx : x = n
  · subst hx
    rw [lookup_mapInsert_self] at hxy
    simp at hxy
  · rw [lookup_mapInsert_ne _ _ hx] at hxy
    exact hxy

theorem contains_after_insert_node {g : Graph} {n : TaskId} (x : TaskId)
    (hx : g.contains_node x = true) : (g.insert_node n).2.contains_node x = true := by
  rw [insert_node, contains_node]
  by_cases hxa : x = n
  · subst hxa
    rw [lookup_mapInsert_self]
    rfl
  · rw [lookup_mapInsert_ne _ _ hxa]
    exact hx

/-- Invariant of graphs built through the mutating API when every inserted
edge points from a larger to a smaller id: all edges keep decreasing, and the
graph stays closed. -/
theorem applyOps_decreasing : ∀ (ops : List GraphOp) (g g2 : Graph),
    (∀ a b, GraphOp.edge a b ∈ ops → b < a) →
    (∀ x y, g.Edge x y → y < x) → g.Closed →
    applyOps g ops = .ok g2 →
    (∀ x y, g2.Edge x y → y < x) ∧ g2.Closed := by
  intro ops
  induction ops with
  | nil =>
    intro g g2 _ hdec hcl h
    simp only [applyOps, Except.ok.injEq] at h
    subst h
    exact ⟨hdec, hcl⟩
  | cons op ops ih =>
    intro g g2 hops hdec hcl h
    cases op with
    | node n =>
      rw [applyOps] at h
      refine ih _ g2 (fun a b hm => hops a b (by simp [hm])) ?_ ?_ h
      · intro x y hxy
        exact hdec x y (edge_after_insert_node hxy)
      · intro x y hxy
        exact contains_after_insert_node y (hcl x y (edge_after_insert_node hxy))
    | edge a b =>
      rw [applyOps] at h
      split at h
      · simp at h
      · rename_i r heq
        obtain ⟨add, g3⟩ := r
        refine ih g3 g2 (fun a2 b2 hm => hops a2 b2 (by simp [hm])) ?_ ?_ h
        · intro x y hxy
          rcases edge_after_insert_edge heq hxy with ⟨h1, h2⟩ | h2
          · subst h1
            subst h2
            exact hops x y (by simp)
          · exact hdec x y h2
        · intro x y hxy
          rcases edge_after_insert_edge heq hxy with ⟨h1, h2⟩ | h2
          · subst h2
            exact contains_after_insert_edge heq y (insert_edge_ok heq).2.1
          · exact contains_after_insert_edge heq y (hcl x y h2)

theorem transGen_lt {g : Graph} (hdec : ∀ x y, g.Edge x y → y < x) :
    ∀ {u v : TaskId}, Relation.TransGen g.Edge u v → v < u := by
  intro u v h
  induction h with
  | single h1 => exact hdec _ _ h1
  | tail _ h2 ih => exact lt_trans (hdec _ _ h2) ih

end Graph


/-- A successful `Task::new` issues exactly the current `next_id` and
leaves `next_id` incremented by one. -/
theorem task_new_ok {name : String} {info : Option String} {tags : List String}
    {deps : List TaskId} {prio : Option Priority} {due : Option Nat}
    {created : Nat} {v : VaultFiles} {st : ProgState}
    {r : InternalTask × VaultFiles × ProgState}
    (h : Task.new name info tags deps prio due created v st = .ok r) :
    r.1.id = st.next_id ∧ r.2.2.next_id = st.next_id + 1 := by
  rw [Task.new] at h
  split at h
  · simp at h
  · simp only [] at h
    split at h
    · simp at h
    · simp only [Except.ok.injEq] at h
      subst h
      exact ⟨rfl, rfl⟩

/-- A successful delete leaves `next_id` untouched. -/
theorem programDelete_next_id {v : VaultFiles} {st : ProgState} {tok : String}
    {r : VaultFiles × ProgState} (h : programDelete v st tok = .ok r) :
    r.2.next_id = st.next_id := by
  rw [programDelete] at h
  split at h
  · simp at h
  · split at h
    · simp at h
    · simp only [Except.ok.injEq] at h
      subst h
      rfl

/-- In any session, the issued ids are strictly increasing and bounded
below by the `next_id` the session started with. -/
theorem sessionRun_bounds : ∀ (ops : List VaultOp) (v : VaultFiles) (st : ProgState),
    (sessionRun (v, st) ops).Chain' (· < ·) ∧
    ∀ i ∈ sessionRun (v, st) ops, st.next_id ≤ i := by
  intro ops
  induction ops with
  | nil =>
    intro v st
    exact ⟨by simp [sessionRun], by simp [sessionRun]⟩
  | cons op ops ih =>
    intro v st
    cases op with
    | create name deps =>
      rw [sessionRun]
      cases hnew : Task.new name none [] deps none none 0 v st with
      | error e => simp
      | ok r =>
        obtain ⟨hid, hnext⟩ := task_new_ok hnew
        obtain ⟨hch, hlb⟩ := ih r.2.1 r.2.2
        constructor
        · refine List.chain'_cons'.mpr ⟨?_, hch⟩
          intro y hy
          have hmem : y ∈ sessionRun (r.2.1, r.2.2) ops := by
            cases hsr : sessionRun (r.2.1, r.2.2) ops with
            | nil => rw [hsr] at hy; simp at hy
            | cons z zs =>
              rw [hsr] at hy
              simp at hy
              subst hy
              simp
          have hble := hlb y hmem
          rw [hid]
          rw [hnext] at hble
          exact Nat.lt_of_succ_le hble
        · intro i hi
          rcases List.mem_cons.mp hi with h1 | h1
          · rw [h1, hid]
          · have hble := hlb i h1
            rw [hnext] at hble
            exact Nat.le_of_succ_le hble
    | delete tok =>
      rw [sessionRun]
      cases hdel : programDelete v st tok with
      | error e => simp
      | ok r =>
        have hnext := programDelete_next_id hdel
        obtain ⟨hch, hlb⟩ := ih r.1 r.2
        refine ⟨hch, ?_⟩
        intro i hi
        have hble := hlb i hi
        rw [hnext] at hble
        exact hble

/-- Claim C1: evaluation of the `Delete` handler (src/main.rs) at the
failing input. The vault holds task 0 (named a) and task 1 (named b) whose
stored dependencies contain 0. Deleting a succeeds, removes the node from
the graph and the name from the index — but task 1 is never re-saved: its
record still stores dependency 0 after the delete, contradicting the
claim that every dependent is re-saved with the deleted id stripped. -/
theorem toru_c1_delete_leaves_stale_dependency :
    programDelete
        [(0, ⟨0, "a", [], [], .low, none, 0, none, none, []⟩),
          (1, ⟨1, "b", [], [0], .low, none, 0, none, none, []⟩)]
        ⟨2, ⟨[("a", [0]), ("b", [1])]⟩, ⟨[(0, []), (1, [0])]⟩⟩ "a"
      = .ok ([(1, ⟨1, "b", [], [0], .low, none, 0, none, none, []⟩)],
          ⟨2, ⟨[("b", [1])]⟩, ⟨[(1, [])]⟩⟩) ∧
    0 ∈ (⟨1, "b", [], [0], .low, none, 0, none, none, []⟩ : InternalTask).dependencies := by
  decide

/-- Claim C2: evaluation of the `State::load` bootstrap (src/state.rs) at
the failing input (no state file; records 0 and 1 where record 1 depends on
0). The rebuilt state holds only `next_id` and the name index —
`InternalState` has no dependency-graph field at all — while the
specification requires additionally rebuilding the graph from every record,
which here is the nonempty `Graph::create` result shown. -/
theorem toru_c2_bootstrap_rebuilds_no_graph :
    State_load_bootstrap
        [(0, ⟨0, "a", [], [], .low, none, 0, none, none, []⟩),
          (1, ⟨1, "b", [], [0], .low, none, 0, none, none, []⟩)]
      = ⟨2, [("a", [0]), ("b", [1])]⟩ ∧
    specRequiredGraph
        [(0, ⟨0, "a", [], [], .low, none, 0, none, none, []⟩),
          (1, ⟨1, "b", [], [0], .low, none, 0, none, none, []⟩)]
      = ⟨[(0, []), (1, [0])]⟩ ∧
    specRequiredGraph
        [(0, ⟨0, "a", [], [], .low, none, 0, none, none, []⟩),
          (1, ⟨1, "b", [], [0], .low, none, 0, none, none, []⟩)]
      ≠ Graph.empty := by
  decide

/-- Claim C3 counterexample: the graph 0 → 1, 1 → 2, 2 → 1 is closed and
contains a cycle, yet `find_cycle` returns the path [1, 2, 1, 0], whose
first and last elements differ (the search start 0 is appended even though
it is not on the cycle), and whose consecutive pair (1, 0) is not an edge
read left to right. -/
theorem toru_c3_counterexample :
    Graph.Closed ⟨[(0, [1]), (1, [2]), (2, [1])]⟩ ∧
    Relation.TransGen (Graph.Edge ⟨[(0, [1]), (1, [2]), (2, [1])]⟩) 1 1 ∧
    Graph.find_cycle ⟨[(0, [1]), (1, [2]), (2, [1])]⟩ = some [1, 2, 1, 0] ∧
    ([1, 2, 1, 0] : List TaskId).head? ≠ ([1, 2, 1, 0] : List TaskId).getLast? ∧
    ¬Graph.Edge ⟨[(0, [1]), (1, [2]), (2, [1])]⟩ 1 0 :=
  ⟨Graph.closed_of_closedB (by decide),
    Relation.TransGen.head
      (by decide : Graph.Edge ⟨[(0, [1]), (1, [2]), (2, [1])]⟩ 1 2)
      (Relation.TransGen.single
        (by decide : Graph.Edge ⟨[(0, [1]), (1, [2]), (2, [1])]⟩ 2 1)),
    by decide, by decide, by decide⟩

/-- Claim C3 (amended): for every graph in which every edge endpoint has a
node entry, `find_cycle()` returns `None` when the graph is acyclic and
`Some(path)` when it contains a cycle; in any returned path the FIRST
element reoccurs at a later position (rather than first and last being
equal) and each consecutive pair `(x, y)` of the path is a real edge read
right to left (`y → x`), so the prefix of the path up to that reoccurrence
witnesses a genuine cycle through the first element. -/
theorem toru_c3_find_cycle_amended (g : Graph) (hc : g.Closed) :
    ((¬∃ v, Relation.TransGen g.Edge v v) → g.find_cycle = none) ∧
    ((∃ v, Relation.TransGen g.Edge v v) → ∃ p, g.find_cycle = some p) ∧
    (∀ p, g.find_cycle = some p →
      ∃ w, p.head? = some w ∧ w ∈ p.tail ∧
        List.Chain' (fun a b => g.Edge b a) p ∧ Relation.TransGen g.Edge w w) :=
  ⟨Graph.find_cycle_none_of_acyclic g hc, Graph.find_cycle_isSome_of_cycle g hc,
    fun p hp => Graph.find_cycle_props g p hp⟩

/-- Claim C3 witness: the amended theorem applied to the two-cycle 5 ⇄ 6. -/
theorem toru_c3_witness :
    ∃ p, Graph.find_cycle ⟨[(5, [6]), (6, [5])]⟩ = some p :=
  (toru_c3_find_cycle_amended ⟨[(5, [6]), (6, [5])]⟩
    (Graph.closed_of_closedB (by decide))).2.1
    ⟨5, Relation.TransGen.head
      (by decide : Graph.Edge ⟨[(5, [6]), (6, [5])]⟩ 5 6)
      (Relation.TransGen.single
        (by decide : Graph.Edge ⟨[(5, [6]), (6, [5])]⟩ 6 5))⟩

/-- Claim C4 counterexample: from the empty graph, `insert_node 1`,
`insert_node 2` and the two successful `insert_edge` calls 1 → 2 and 2 → 1
build a cyclic graph (`insert_edge` checks nothing about cycles), so
`find_cycle` returns a path, not `None`. -/
theorem toru_c4_counterexample :
    Graph.applyOps Graph.empty
        [Graph.GraphOp.node 1, Graph.GraphOp.node 2,
          Graph.GraphOp.edge 1 2, Graph.GraphOp.edge 2 1]
      = .ok ⟨[(1, [2]), (2, [1])]⟩ ∧
    Graph.find_cycle ⟨[(1, [2]), (2, [1])]⟩ = some [1, 2, 1] := by
  decide

/-- Claim C4 (amended): for every graph obtained from the empty graph by a
sequence of `insert_node` calls and successful `insert_edge` calls in which
every inserted edge points from a strictly larger to a strictly smaller id
— as in task creation, where a new task's id exceeds the ids of its
dependencies — `find_cycle()` returns `None`. -/
theorem toru_c4_insert_api_acyclic (ops : List Graph.GraphOp) (g : Graph)
    (hdec : ∀ a b, Graph.GraphOp.edge a b ∈ ops → b < a)
    (h : Graph.applyOps Graph.empty ops = .ok g) :
    g.find_cycle = none := by
  have hbase1 : ∀ x y, Graph.empty.Edge x y → y < x := by
    intro x y hxy
    rw [Graph.Edge, Graph.neighbors] at hxy
    simp [Graph.empty, List.lookup] at hxy
  have hbase2 : Graph.empty.Closed := by
    intro x y hxy
    rw [Graph.Edge, Graph.neighbors] at hxy
    simp [Graph.empty, List.lookup] at hxy
  obtain ⟨hdec2, hcl2⟩ := Graph.applyOps_decreasing ops Graph.empty g hdec hbase1 hbase2 h
  refine Graph.find_cycle_none_of_acyclic g hcl2 ?_
  rintro ⟨v, hv⟩
  exact lt_irrefl v (Graph.transGen_lt hdec2 hv)

/-- Claim C4 witness: the amended theorem applied to the sequence
node 1, node 2, edge 2 → 1. -/
theorem toru_c4_witness :
    Graph.find_cycle ⟨[(1, []), (2, [1])]⟩ = none :=
  toru_c4_insert_api_acyclic
    [Graph.GraphOp.node 1, Graph.GraphOp.node 2, Graph.GraphOp.edge 2 1]
    ⟨[(1, []), (2, [1])]⟩
    (by
      intro a b hm
      simp at hm
      obtain ⟨h1, h2⟩ := hm
      subst h1
      subst h2
      decide)
    (by decide)

/-- Claim C5: `Index::lookup` returns a token parsing as u64 directly
without consulting the map; otherwise it returns the not-found error naming
the token when the name has no entry, the unique id when the name maps to
exactly one id, and the ambiguous error carrying every stored id when it
maps to more than one. -/
theorem toru_c5_lookup_spec (idx : Index) (tok : String) :
    (∀ n, parseU64 tok = some n → idx.lookup tok = .ok n) ∧
    (parseU64 tok = none → idx.map.lookup tok = none →
      idx.lookup tok = .error (.generic (.noteNotFound tok))) ∧
    (∀ i, parseU64 tok = none → idx.map.lookup tok = some [i] →
      idx.lookup tok = .ok i) ∧
    (∀ ids, parseU64 tok = none → idx.map.lookup tok = some ids →
      2 ≤ ids.length → idx.lookup tok = .error (.generic (.multipleNotes ids))) := by
  refine ⟨?_, ?_, ?_, ?_⟩
  · intro n h
    rw [Index.lookup, h]
  · intro h1 h2
    rw [Index.lookup, h1, h2]
  · intro i h1 h2
    rw [Index.lookup, h1, h2]
    rfl
  · intro ids h1 h2 hlen
    simp only [Index.lookup, h1, h2]
    rw [if_neg (by omega : ¬ids.length = 1)]

/-- Claim C5 witness: two tasks both named groceries (ids 3 and 7) give the
ambiguous error listing [3, 7], while the token 3 resolves to id 3 without
consulting the index. -/
theorem toru_c5_witness :
    Index.lookup ⟨[("groceries", [3, 7])]⟩ "groceries"
      = .error (.generic (.multipleNotes [3, 7])) ∧
    Index.lookup ⟨[("groceries", [3, 7])]⟩ "3" = .ok 3 :=
  ⟨(toru_c5_lookup_spec ⟨[("groceries", [3, 7])]⟩ "groceries").2.2.2 [3, 7]
      (by decide) (by decide) (by decide),
    (toru_c5_lookup_spec ⟨[("groceries", [3, 7])]⟩ "3").1 3 (by decide)⟩

/-- Claim C6: `insert_edge(from, to)` fails with the Internal error when
either endpoint has no node entry, fails with the user-facing
self-dependency error when `from = to` (and both are nodes), and otherwise
succeeds, returning `true` exactly when the edge was absent; repeating the
same successful call returns `false` and leaves the graph unchanged. -/
theorem toru_c6_insert_edge_spec (g : Graph) (a b : TaskId) (hwf : g.WF) :
    (¬(g.contains_node a = true ∧ g.contains_node b = true) →
      g.insert_edge a b = .error (.internal .edgeMissingNode)) ∧
    (g.contains_node a = true → g.contains_node b = true → a = b →
      g.insert_edge a b = .error (.generic (.selfDependency a))) ∧
    (g.contains_node a = true → g.contains_node b = true → a ≠ b →
      ∃ added g2, g.insert_edge a b = .ok (added, g2) ∧
        (added = true ↔ ¬g.Edge a b) ∧
        g2.insert_edge a b = .ok (false, g2)) := by
  refine ⟨?_, ?_, ?_⟩
  · intro hn
    have hcond : (!g.contains_node a || !g.contains_node b) = true := by
      cases hca : g.contains_node a
      · simp
      · cases hcb : g.contains_node b
        · simp
        · exact absurd ⟨hca, hcb⟩ hn
    rw [Graph.insert_edge, if_pos hcond]
  · intro hA hB heq
    have hcond : ¬((!g.contains_node a || !g.contains_node b) = true) := by
      simp [hA, hB]
    rw [Graph.insert_edge, if_neg hcond, if_pos heq]
  · intro hA hB hne
    have hcond : ¬((!g.contains_node a || !g.contains_node b) = true) := by
      simp [hA, hB]
    have hA2 := hA
    rw [Graph.contains_node] at hA2
    obtain ⟨ns0, hns0⟩ := Option.isSome_iff_exists.mp hA2
    have hnb : g.neighbors a = ns0 := by
      rw [Graph.neighbors, hns0]
      rfl
    have hpw : ns0.Pairwise (· < ·) := hwf.2 (a, ns0) (Graph.lookup_mem hns0)
    have hcall1 : g.insert_edge a b
        = .ok ((setInsert b ns0).1, ⟨mapInsert a (setInsert b ns0).2 g.edges⟩) := by
      rw [Graph.insert_edge, if_neg hcond, if_neg hne]
      simp only [hns0, Option.getD_some]
    refine ⟨(setInsert b ns0).1, ⟨mapInsert a (setInsert b ns0).2 g.edges⟩, hcall1, ?_, ?_⟩
    · rw [Graph.setInsert_fst_iff b ns0 hpw, Graph.Edge, hnb]
    · have hlook2 : (mapInsert a (setInsert b ns0).2 g.edges).lookup a
          = some (setInsert b ns0).2 :=
        Graph.lookup_mapInsert_self a _ g.edges
      have hA3 : (⟨mapInsert a (setInsert b ns0).2 g.edges⟩ : Graph).contains_node a = true := by
        show ((mapInsert a (setInsert b ns0).2 g.edges).lookup a).isSome = true
        rw [hlook2]
        rfl
      have hB3 : (⟨mapInsert a (setInsert b ns0).2 g.edges⟩ : Graph).contains_node b = true := by
        show ((mapInsert a (setInsert b ns0).2 g.edges).lookup b).isSome = true
        rw [Graph.lookup_mapInsert_ne _ _ (Ne.symm hne)]
        exact hB
      have hcond2 : ¬((!(⟨mapInsert a (setInsert b ns0).2 g.edges⟩ : Graph).contains_node a
          || !(⟨mapInsert a (setInsert b ns0).2 g.edges⟩ : Graph).contains_node b) = true) := by
        simp [hA3, hB3]
      rw [Graph.insert_edge, if_neg hcond2, if_neg hne]
      have hT : (((⟨mapInsert a (setInsert b ns0).2 g.edges⟩ : Graph).edges.lookup a).getD [])
          = (setInsert b ns0).2 := by
        show ((mapInsert a (setInsert b ns0).2 g.edges).lookup a).getD [] = _
        rw [hlook2]
        rfl
      rw [hT]
      have hmem : b ∈ (setInsert b ns0).2 := (Graph.mem_setInsert b b ns0).mpr (Or.inl rfl)
      have hpw2 : (setInsert b ns0).2.Pairwise (· < ·) := Graph.pairwise_setInsert b ns0 hpw
      show Except.ok ((setInsert b (setInsert b ns0).2).1,
          (⟨mapInsert a (setInsert b (setInsert b ns0).2).2
            (mapInsert a (setInsert b ns0).2 g.edges)⟩ : Graph))
        = Except.ok ((false : Bool), (⟨mapInsert a (setInsert b ns0).2 g.edges⟩ : Graph))
      simp only [Graph.setInsert_of_mem b _ hpw2 hmem]
      rw [Graph.mapInsert_idem]

/-- Claim C6 witness: the specification applied to the concrete graph with
nodes 1 and 2 — missing endpoint 99, self-dependency 2 → 2, and the fresh
then repeated edge 1 → 2. -/
theorem toru_c6_witness :
    Graph.insert_edge ⟨[(1, []), (2, [])]⟩ 1 99 = .error (.internal .edgeMissingNode) ∧
    Graph.insert_edge ⟨[(1, []), (2, [])]⟩ 2 2 = .error (.generic (.selfDependency 2)) ∧
    ∃ added g2, Graph.insert_edge ⟨[(1, []), (2, [])]⟩ 1 2 = .ok (added, g2) ∧
      (added = true ↔ ¬Graph.Edge ⟨[(1, []), (2, [])]⟩ 1 2) ∧
      g2.insert_edge 1 2 = .ok (false, g2) := by
  have hwf : Graph.WF ⟨[(1, []), (2, [])]⟩ := by
    constructor
    · simp
    · intro p hp
      rcases List.mem_cons.mp hp with h1 | h1
      · rw [h1]
        simp
      · simp at h1
        rw [h1]
        simp
  exact ⟨(toru_c6_insert_edge_spec _ 1 99 hwf).1 (by decide),
    (toru_c6_insert_edge_spec _ 2 2 hwf).2.1 (by decide) (by decide) rfl,
    (toru_c6_insert_edge_spec _ 1 2 hwf).2.2 (by decide) (by decide) (by decide)⟩

/-- Claim C7: across any sequence of creations and deletions on one loaded
vault state whose `next_id` exceeds every existing task id, the ids issued
by task creation are strictly increasing, and every issued id exceeds every
id present when the session started — including ids of tasks deleted during
the session, which were either present initially or issued earlier. -/
theorem toru_c7_issued_ids_increase (v : VaultFiles) (st : ProgState)
    (ops : List VaultOp)
    (hinit : ∀ id ∈ v.map (fun p => p.1), id < st.next_id) :
    (sessionRun (v, st) ops).Chain' (· < ·) ∧
    ∀ i ∈ sessionRun (v, st) ops, ∀ id0 ∈ v.map (fun p => p.1), id0 < i := by
  obtain ⟨hch, hlb⟩ := sessionRun_bounds ops v st
  exact ⟨hch, fun i hi id0 hid0 => lt_of_lt_of_le (hinit id0 hid0) (hlb i hi)⟩

/-- Claim C7 witness: creating a, deleting it, then creating b issues
ids 0 then 1 from the empty vault. -/
theorem toru_c7_witness :
    (sessionRun ([], ⟨0, ⟨[]⟩, ⟨[]⟩⟩)
      [.create "a" [], .delete "a", .create "b" []]).Chain' (· < ·) ∧
    ∀ i ∈ sessionRun ([], ⟨0, ⟨[]⟩, ⟨[]⟩⟩)
        [.create "a" [], .delete "a", .create "b" []],
      ∀ id0 ∈ ([] : VaultFiles).map (fun p => p.1), id0 < i :=
  toru_c7_issued_ids_increase [] ⟨0, ⟨[]⟩, ⟨[]⟩⟩
    [.create "a" [], .delete "a", .create "b" []] (by simp)

/-- Claim C8 counterexample: the name 123 is purely numeric, yet
`Task::save` succeeds on a task so named instead of failing with the
numeric-name validation error — `save` performs no validation. -/
theorem toru_c8_counterexample :
    nameIsPurelyNumeric "123" = true ∧
    Task.save [(0, ⟨0, "123", [], [], .low, none, 0, none, none, []⟩)]
        ⟨0, "123", [], [], .low, none, 0, none, none, []⟩
      = .ok [(0, ⟨0, "123", [], [], .low, none, 0, none, none, []⟩)] ∧
    Task.save [(0, ⟨0, "123", [], [], .low, none, 0, none, none, []⟩)]
        ⟨0, "123", [], [], .low, none, 0, none, none, []⟩
      ≠ .error (.generic .numericName) := by
  decide

/-- Claim C8 (amended): `Task::save` performs no name validation at save
time: for every task, a purely numeric name included, it re-serialises and
overwrites the record and succeeds. The numeric-name invariant is enforced
at creation (`Task::new`, shown here) and in the raw-edit path, not in
`save`. -/
theorem toru_c8_save_no_validation (v : VaultFiles) (t : InternalTask)
    (hnum : nameIsPurelyNumeric t.name = true) :
    Task.save v t = .ok (writeRecord v t.id t) ∧
    ∀ info tags deps prio due created v2 st2,
      Task.new t.name info tags deps prio due created v2 st2
        = .error (.generic .numericName) := by
  refine ⟨rfl, ?_⟩
  intro info tags deps prio due created v2 st2
  rw [Task.new, if_pos hnum]

/-- Claim C8 witness: the amended theorem applied to a task named 42. -/
theorem toru_c8_witness :
    Task.save [] ⟨5, "42", [], [], .low, none, 0, none, none, []⟩
      = .ok (writeRecord [] 5 ⟨5, "42", [], [], .low, none, 0, none, none, []⟩) ∧
    ∀ info tags deps prio due created v2 st2,
      Task.new "42" info tags deps prio due created v2 st2
        = .error (.generic .numericName) :=
  toru_c8_save_no_validation [] ⟨5, "42", [], [], .low, none, 0, none, none, []⟩
    (by decide)

/-- Claim C9: for non-negative duration values with `minutes < 60`,
addition of any two such values and division of such a value by any
positive count again satisfy `minutes < 60` (both operations end by
reducing minutes modulo 60). -/
theorem toru_c9_duration_invariant (d1 d2 : Duration) (n : Nat)
    (h1 : d1.satisfies_invariant = true) (h2 : d2.satisfies_invariant = true)
    (hn : 0 < n) :
    (Duration.add d1 d2).satisfies_invariant = true ∧
    (Duration.divByCount d1 n).satisfies_invariant = true := by
  constructor
  · simp only [Duration.satisfies_invariant, Duration.add, decide_eq_true_eq]
    exact Nat.mod_lt _ (by norm_num)
  · simp only [Duration.satisfies_invariant, Duration.divByCount, decide_eq_true_eq]
    exact Nat.mod_lt _ (by norm_num)

/-- Claim C9 witness: 1:59 + 2:59 and 1:59 divided by 3 both satisfy the
minutes invariant. -/
theorem toru_c9_witness :
    (Duration.add ⟨1, 59⟩ ⟨2, 59⟩).satisfies_invariant = true ∧
    (Duration.divByCount ⟨1, 59⟩ 3).satisfies_invariant = true :=
  toru_c9_duration_invariant ⟨1, 59⟩ ⟨2, 59⟩ 3 (by decide) (by decide) (by decide)

/-- Claim C10: `chars().all(is_numeric)` is vacuously true on the empty
string, so the empty name counts as purely numeric and both `Task::new`
and the raw-edit validation (reached once the duration and id checks pass)
reject it with the numeric-name error. -/
theorem toru_c10_empty_name_rejected :
    nameIsPurelyNumeric "" = true ∧
    (∀ info tags deps prio due created v st,
      Task.new "" info tags deps prio due created v st
        = .error (.generic .numericName)) ∧
    (∀ orig edited v st, edited.name = "" →
      (edited.time_entries.all (fun e => e.duration.satisfies_invariant)) = true →
      edited.id = orig.id →
      edit_raw orig edited v st = .error (.generic .numericName)) := by
  refine ⟨rfl, ?_, ?_⟩
  · intro info tags deps prio due created v st
    rw [Task.new, if_pos (by decide : nameIsPurelyNumeric "" = true)]
  · intro orig edited v st hname hdur hid
    rw [edit_raw, if_neg (by simp [hdur]), if_neg (by simp [hid]),
      if_pos (by rw [hname]; decide)]

/-- Claim C10 witness: the rejection applied to a concrete empty-named
creation and a concrete raw edit that empties the name. -/
theorem toru_c10_witness :
    Task.new "" none [] [] none none 0 [] ⟨0, ⟨[]⟩, ⟨[]⟩⟩
      = .error (.generic .numericName) ∧
    edit_raw ⟨0, "a", [], [], .low, none, 0, none, none, []⟩
        ⟨0, "", [], [], .low, none, 0, none, none, []⟩
        [] ⟨1, ⟨[("a", [0])]⟩, ⟨[(0, [])]⟩⟩
      = .error (.generic .numericName) :=
  ⟨toru_c10_empty_name_rejected.2.1 none [] [] none none 0 [] ⟨0, ⟨[]⟩, ⟨[]⟩⟩,
    toru_c10_empty_name_rejected.2.2 _ _ _ _ rfl (by decide) (by decide)⟩

end Toru
